import Mathlib

/-!
Verification of the x64 instruction-lowering rules of
cranelift/codegen/src/isa/x64/lower.rs.

Machine integers are modelled as Nat together with explicit reductions
modulo 2 ^ 64 (resp. 2 ^ 32) where the Rust code wraps; signed readings of a
bit pattern go through toInt64 / toInt128.  Registers are modelled as Nat
identifiers.  Emitted machine instructions are modelled by the inductive
type XInst below; functions that lower one IR instruction become Lean
functions from a description of the relevant IR inputs to the emitted
instruction list (plus, where the source is stateful, explicit state
passing of the temporary-register allocator).
-/

/-- Signed reading of a 64-bit pattern (two-complement). -/
def toInt64 (x : Nat) : Int :=
  if x < 2 ^ 63 then (x : Int) else (x : Int) - 2 ^ 64

/-- Signed reading of a 128-bit pattern (two-complement). -/
def toInt128 (x : Nat) : Int :=
  if x < 2 ^ 127 then (x : Int) else (x : Int) - 2 ^ 128

/-- The 128-bit value made of a high and a low 64-bit half. -/
def valHalves (hi lo : Nat) : Nat := hi * 2 ^ 64 + lo

/-- Sign-extension of the low 32 bits of a pattern to a 64-bit pattern. -/
def sext32to64 (x : Nat) : Nat :=
  if x % 2 ^ 32 < 2 ^ 31 then x % 2 ^ 32 else x % 2 ^ 32 + (2 ^ 64 - 2 ^ 32)

/-- Modelled from the spec: the helper low32_will_sign_extend_to_64 (declared
outside the provided sources) decides whether a 64-bit value is reproduced by
sign-extending its low 32 bits, i.e. whether it can be committed as a 32-bit
displacement or immediate. -/
def low32_will_sign_extend_to_64 (x : Nat) : Bool :=
  decide (x % 2 ^ 64 = sext32to64 x)

/-- Effect of the x86 setcc instruction on a 64-bit register holding an
arbitrary previous value: only the low byte is overwritten (with 0 or 1). -/
def setcc64 (old : Nat) (b : Bool) : Nat :=
  256 * (old / 256) + (if b then 1 else 0)

/-- The IR integer condition codes (ir::condcodes::IntCC). -/
inductive IntCC where
  | Equal
  | NotEqual
  | SignedLessThan
  | SignedGreaterThanOrEqual
  | SignedGreaterThan
  | SignedLessThanOrEqual
  | UnsignedLessThan
  | UnsignedGreaterThanOrEqual
  | UnsignedGreaterThan
  | UnsignedLessThanOrEqual
  | Overflow
  | NotOverflow
deriving DecidableEq, Repr

/-- Modelled from the spec: IntCC.without_equal (condcodes.rs is outside the
provided sources) strips the or-equal part of an ordered relational
condition; the other conditions are unreachable at its call site in
emit_cmp. -/
def IntCC.without_equal : IntCC → IntCC
  | .SignedGreaterThan => .SignedGreaterThan
  | .SignedGreaterThanOrEqual => .SignedGreaterThan
  | .SignedLessThan => .SignedLessThan
  | .SignedLessThanOrEqual => .SignedLessThan
  | .UnsignedGreaterThan => .UnsignedGreaterThan
  | .UnsignedGreaterThanOrEqual => .UnsignedGreaterThan
  | .UnsignedLessThan => .UnsignedLessThan
  | .UnsignedLessThanOrEqual => .UnsignedLessThan
  | c => c

/-- Modelled from the spec: IntCC.unsigned (condcodes.rs is outside the
provided sources) is the unsigned form of a relational condition. -/
def IntCC.unsigned : IntCC → IntCC
  | .SignedGreaterThan => .UnsignedGreaterThan
  | .UnsignedGreaterThan => .UnsignedGreaterThan
  | .SignedGreaterThanOrEqual => .UnsignedGreaterThanOrEqual
  | .UnsignedGreaterThanOrEqual => .UnsignedGreaterThanOrEqual
  | .SignedLessThan => .UnsignedLessThan
  | .UnsignedLessThan => .UnsignedLessThan
  | .SignedLessThanOrEqual => .UnsignedLessThanOrEqual
  | .UnsignedLessThanOrEqual => .UnsignedLessThanOrEqual
  | c => c

/-- Modelled from the spec: IntCC.inverse (condcodes.rs is outside the
provided sources) is the logical negation of a condition. -/
def IntCC.inverse : IntCC → IntCC
  | .Equal => .NotEqual
  | .NotEqual => .Equal
  | .SignedLessThan => .SignedGreaterThanOrEqual
  | .SignedGreaterThanOrEqual => .SignedLessThan
  | .SignedGreaterThan => .SignedLessThanOrEqual
  | .SignedLessThanOrEqual => .SignedGreaterThan
  | .UnsignedLessThan => .UnsignedGreaterThanOrEqual
  | .UnsignedGreaterThanOrEqual => .UnsignedLessThan
  | .UnsignedGreaterThan => .UnsignedLessThanOrEqual
  | .UnsignedLessThanOrEqual => .UnsignedGreaterThan
  | .Overflow => .NotOverflow
  | .NotOverflow => .Overflow

/-- Truth of setcc(CC::from_intcc cc) right after cmp(src := b, dst := a) on
64-bit operands: the x86 compare computes a - b, and the derived condition
code tests exactly the stated relation between the two 64-bit patterns
(signed relations through their two-complement readings).  Overflow and
NotOverflow never reach this helper (emit_cmp panics on them first). -/
def intCCHolds64 (cc : IntCC) (a b : Nat) : Bool :=
  match cc with
  | .Equal => decide (a = b)
  | .NotEqual => decide (a ≠ b)
  | .SignedLessThan => decide (toInt64 a < toInt64 b)
  | .SignedLessThanOrEqual => decide (toInt64 a ≤ toInt64 b)
  | .SignedGreaterThan => decide (toInt64 b < toInt64 a)
  | .SignedGreaterThanOrEqual => decide (toInt64 b ≤ toInt64 a)
  | .UnsignedLessThan => decide (a < b)
  | .UnsignedLessThanOrEqual => decide (a ≤ b)
  | .UnsignedGreaterThan => decide (b < a)
  | .UnsignedGreaterThanOrEqual => decide (b ≤ a)
  | .Overflow => false
  | .NotOverflow => false

/-- Shallow embedding of the I128 branch of emit_cmp (lower.rs lines
384-470).  Arguments mirror the register contents: lhs and rhs halves, and
the arbitrary previous contents j1 j2 j3 of the three temporaries cmp1 cmp2
cmp3 (setcc only overwrites their low byte).  The value of the register
holding the final combined result is returned together with the IntCC that
emit_cmp hands back to its caller; the unreachable(panicking) conditions
Overflow and NotOverflow give none. -/
def emit_cmp_i128 (cc : IntCC) (lhsLo lhsHi rhsLo rhsHi j1 j2 j3 : Nat) :
    Option (Nat × IntCC) :=
  match cc with
  | .Equal =>
    let cmp1 := setcc64 j1 (intCCHolds64 .Equal lhsHi rhsHi)
    let cmp2 := setcc64 j2 (intCCHolds64 .Equal lhsLo rhsLo)
    let cmp2a := cmp2 &&& cmp1
    let cmp2b := cmp2a &&& 1
    some (cmp2b, .NotEqual)
  | .NotEqual =>
    let cmp1 := setcc64 j1 (intCCHolds64 .NotEqual lhsHi rhsHi)
    let cmp2 := setcc64 j2 (intCCHolds64 .NotEqual lhsLo rhsLo)
    let cmp2a := cmp2 ||| cmp1
    let cmp2b := cmp2a &&& 1
    some (cmp2b, .NotEqual)
  | .Overflow => none
  | .NotOverflow => none
  | c =>
    let cmp1 := setcc64 j1 (intCCHolds64 c.without_equal lhsHi rhsHi)
    let cmp2 := setcc64 j2 (intCCHolds64 .Equal lhsHi rhsHi)
    let cmp3 := setcc64 j3 (intCCHolds64 c.unsigned lhsLo rhsLo)
    let cmp3a := cmp3 &&& cmp2
    let cmp3b := cmp3a ||| cmp1
    let cmp3c := cmp3b &&& 1
    some (cmp3c, .NotEqual)

/-- Reference 128-bit comparison, on the composed 128-bit values, computed
with native wide arithmetic (signed relations through the two-complement
reading of the 128-bit pattern). -/
def refCmp128 (cc : IntCC) (a b : Nat) : Bool :=
  match cc with
  | .Equal => decide (a = b)
  | .NotEqual => decide (a ≠ b)
  | .SignedLessThan => decide (toInt128 a < toInt128 b)
  | .SignedLessThanOrEqual => decide (toInt128 a ≤ toInt128 b)
  | .SignedGreaterThan => decide (toInt128 b < toInt128 a)
  | .SignedGreaterThanOrEqual => decide (toInt128 b ≤ toInt128 a)
  | .UnsignedLessThan => decide (a < b)
  | .UnsignedLessThanOrEqual => decide (a ≤ b)
  | .UnsignedGreaterThan => decide (b < a)
  | .UnsignedGreaterThanOrEqual => decide (b ≤ a)
  | .Overflow => false
  | .NotOverflow => false

/-- The x86 condition codes (isa::x64::inst::args::CC). -/
inductive CC where
  | O | NO | B | NB | Z | NZ | BE | NBE
  | S | NS | P | NP | L | NL | LE | NLE
deriving DecidableEq, Repr

/-- Modelled from the spec: CC.from_intcc (args.rs is outside the provided
sources) renames an IR integer condition into the x86 condition tested
after a compare. -/
def CC.from_intcc : IntCC → CC
  | .Equal => .Z
  | .NotEqual => .NZ
  | .SignedLessThan => .L
  | .SignedGreaterThanOrEqual => .NL
  | .SignedGreaterThan => .NLE
  | .SignedLessThanOrEqual => .LE
  | .UnsignedLessThan => .B
  | .UnsignedGreaterThanOrEqual => .NB
  | .UnsignedGreaterThan => .NBE
  | .UnsignedLessThanOrEqual => .BE
  | .Overflow => .O
  | .NotOverflow => .NO

/-- The IR float condition codes (ir::condcodes::FloatCC). -/
inductive FloatCC where
  | Ordered
  | Unordered
  | Equal
  | NotEqual
  | OrderedNotEqual
  | UnorderedOrEqual
  | LessThan
  | LessThanOrEqual
  | GreaterThan
  | GreaterThanOrEqual
  | UnorderedOrLessThan
  | UnorderedOrLessThanOrEqual
  | UnorderedOrGreaterThan
  | UnorderedOrGreaterThanOrEqual
deriving DecidableEq, Repr

/-- Modelled from the spec: FloatCC.reverse (condcodes.rs is outside the
provided sources) is the condition obtained after swapping the two compared
operands. -/
def FloatCC.reverse : FloatCC → FloatCC
  | .LessThan => .GreaterThan
  | .GreaterThan => .LessThan
  | .LessThanOrEqual => .GreaterThanOrEqual
  | .GreaterThanOrEqual => .LessThanOrEqual
  | .UnorderedOrLessThan => .UnorderedOrGreaterThan
  | .UnorderedOrGreaterThan => .UnorderedOrLessThan
  | .UnorderedOrLessThanOrEqual => .UnorderedOrGreaterThanOrEqual
  | .UnorderedOrGreaterThanOrEqual => .UnorderedOrLessThanOrEqual
  | c => c

/-- Modelled from the spec: CC.from_floatcc (args.rs is outside the provided
sources) maps the float conditions that a single x86 flag can test to that
flag; the conditions needing two flags, or an operand swap, panic there
(modelled by none). -/
def CC.from_floatcc : FloatCC → Option CC
  | .Ordered => some .NP
  | .Unordered => some .P
  | .GreaterThan => some .NBE
  | .GreaterThanOrEqual => some .NB
  | .UnorderedOrLessThan => some .B
  | .UnorderedOrLessThanOrEqual => some .BE
  | _ => none

/-- A specification for a fcmp emission (lower.rs lines 484-496). -/
inductive FcmpSpec where
  | Normal
  | InvertEqual
deriving DecidableEq, Repr

/-- How to interpret the results of an fcmp instruction (lower.rs lines
499-514). -/
inductive FcmpCondResult where
  | Condition (cc : CC)
  | AndConditions (cc1 cc2 : CC)
  | OrConditions (cc1 cc2 : CC)
  | InvertedEqualOrConditions (cc1 cc2 : CC)
deriving DecidableEq, Repr

/-- Recognizer for the InvertedEqualOrConditions variant. -/
def FcmpCondResult.isInvertedEqualOr : FcmpCondResult → Bool
  | .InvertedEqualOrConditions _ _ => true
  | _ => false

/-- Shallow embedding of emit_fcmp (lower.rs lines 520-575), restricted to
the FcmpCondResult it returns (the ucomiss/ucomisd emission and the operand
flip do not influence which variant comes back).  The normalization of the
condition code and the inverted_equal bookkeeping mirror lines 526-545; the
final match mirrors lines 565-572.  none models the panic inside
CC.from_floatcc on conditions it cannot encode. -/
def emit_fcmp_result (cond : FloatCC) (spec : FcmpSpec) : Option FcmpCondResult :=
  let norm : FloatCC × Bool :=
    match cond with
    | .LessThan => (FloatCC.reverse .LessThan, false)
    | .LessThanOrEqual => (FloatCC.reverse .LessThanOrEqual, false)
    | .UnorderedOrGreaterThan => (FloatCC.reverse .UnorderedOrGreaterThan, false)
    | .UnorderedOrGreaterThanOrEqual =>
        (FloatCC.reverse .UnorderedOrGreaterThanOrEqual, false)
    | .Equal =>
        match spec with
        | .Normal => (.Equal, false)
        | .InvertEqual => (.NotEqual, true)
    | c => (c, false)
  match norm.1 with
  | .Equal => some (.AndConditions .NP .Z)
  | .NotEqual =>
      if norm.2 then some (.InvertedEqualOrConditions .P .NZ)
      else some (.OrConditions .P .NZ)
  | c => (CC.from_floatcc c).map .Condition

/-- Committed addressing-mode shape and bookkeeping for lower_to_amode: the
committed 32-bit displacement pattern, the 64-bit values of the constants
folded into it (at most one), whether the mode uses a base and an index
register (the not-folded operands kept as explicit values in registers), and
the shift amount. -/
structure AmodeResult where
  disp32 : Nat
  folded : List Nat
  usesIndex : Bool
  shift : Nat
deriving DecidableEq, Repr

/-- Shape of one operand of the root Iadd, as far as lower_to_amode
inspects it: an Ishl whose shift amount is (or is not) a known constant, a
Uextend whose operand is (or is not) a known constant of the given bit
width, a known constant, or anything else (resolved to a register). -/
inductive AmodeOperand where
  | otherReg
  | shlConst (amt : Nat)
  | shlNonConst
  | uextOfConst (bits : Nat) (cst : Nat)
  | uextNonConst
  | constVal (c : Nat)
deriving DecidableEq, Repr

/-- Root shape handed to lower_to_amode: either an Iadd with two inspected
operands, or any other producer (resolved to a single base register). -/
inductive AmodeRoot where
  | nonAdd
  | iadd (a b : AmodeOperand)
deriving DecidableEq, Repr

/-- Shallow embedding of matches_small_constant_shift (lower.rs lines
650-672): an Ishl by a known constant not exceeding 3. -/
def matches_small_constant_shift (op : AmodeOperand) : Option Nat :=
  match op with
  | .shlConst amt => if amt ≤ 3 then some amt else none
  | _ => none

/-- One iteration body of the folding loop of lower_to_amode (lines
716-748) for one Iadd operand: first try a Uextend of a constant (the
constant is zero-extended from its declared width, the shift pair of line
729-730), then a direct constant; in both cases the candidate displacement
is the 64-bit wrapping sum of the sign-extended static offset and the
constant, and it is committed (low 32 bits) only when it sign-extends back
from 32 bits, else no fold happens.  off is the i32 static offset as a
32-bit pattern. -/
def foldCandidate (off : Nat) (op : AmodeOperand) : Option (Nat × Nat) :=
  match op with
  | .uextOfConst bits cst =>
    let uextCst := cst % 2 ^ bits
    let finalOffset := (sext32to64 off + uextCst) % 2 ^ 64
    if low32_will_sign_extend_to_64 finalOffset then
      some (finalOffset % 2 ^ 32, uextCst)
    else none
  | .constVal c =>
    let cVal := c % 2 ^ 64
    let finalOffset := (sext32to64 off + cVal) % 2 ^ 64
    if low32_will_sign_extend_to_64 finalOffset then
      some (finalOffset % 2 ^ 32, cVal)
    else none
  | _ => none

/-- Shallow embedding of lower_to_amode (lower.rs lines 677-768).  The
memflags copy and the concrete register identities are not tracked; the
result records the committed displacement, the folded constants and the
shape (base only versus base plus index with shift). -/
def lower_to_amode (root : AmodeRoot) (off : Nat) : AmodeResult :=
  match root with
  | .nonAdd => { disp32 := off, folded := [], usesIndex := false, shift := 0 }
  | .iadd a b =>
    match matches_small_constant_shift a with
    | some amt => { disp32 := off, folded := [], usesIndex := true, shift := amt }
    | none =>
      match matches_small_constant_shift b with
      | some amt => { disp32 := off, folded := [], usesIndex := true, shift := amt }
      | none =>
        match foldCandidate off a with
        | some (d, c) => { disp32 := d, folded := [c], usesIndex := false, shift := 0 }
        | none =>
          match foldCandidate off b with
          | some (d, c) => { disp32 := d, folded := [c], usesIndex := false, shift := 0 }
          | none => { disp32 := off, folded := [], usesIndex := true, shift := 0 }

/-- The vector saturating-pack opcodes appearing in the Uunarrow lowering. -/
inductive SseOp where
  | xorpd | maxpd | minpd | roundpd | addpd | shufps
deriving DecidableEq, Repr

/-- The kinds of a checked divide-or-remainder sequence (DivOrRemKind). -/
inductive DivOrRemKind where
  | unsignedDiv | signedDiv | unsignedRem | signedRem
deriving DecidableEq, Repr

/-- Whether the kind computes a quotient. -/
def DivOrRemKind.is_div : DivOrRemKind → Bool
  | .unsignedDiv => true
  | .signedDiv => true
  | _ => false

/-- Whether the kind is signed. -/
def DivOrRemKind.is_signed : DivOrRemKind → Bool
  | .signedDiv => true
  | .signedRem => true
  | _ => false

/-- Abstract machine instructions, one constructor per emission template
used by the lowerings under verification.  Registers are Nat identifiers;
operand widths are bit counts. -/
inductive XInst where
  | cmpRmiRImm (size : Nat) (srcImm : Nat) (dstReg : Nat)
  | cmpRmiRReg (size : Nat) (srcReg : Nat) (dstReg : Nat)
  | jmpCond (cc : CC) (taken notTaken : Nat)
  | jmpKnown (target : Nat)
  | jmpTableSeq (defaultTarget : Nat) (targets : List Nat)
  | movzxRmR (fromBits toBits : Nat)
  | imm (size : Nat) (val : Nat) (dst : Nat)
  | genMove (dst src : Nat)
  | signExtendData (size : Nat)
  | div (size : Nat) (signed : Bool) (divisorReg : Nat)
  | checkedDivOrRemSeq (kind : DivOrRemKind) (size : Nat)
  | shiftRightLogical (size : Nat) (amt : Nat)
  | xmmRmR (op : SseOp) (dst : Nat)
  | xmmRmRImm (op : SseOp) (immv : Nat) (dst : Nat)
  | xmmLoadConst (constId : Nat) (dst : Nat)
deriving DecidableEq, Repr

/-- State of the lowering context as far as the verified helpers touch it:
the fresh virtual-register counter and the accumulated emitted
instructions. -/
structure LowerState where
  nextReg : Nat
  emitted : List XInst
deriving DecidableEq, Repr

/-- ctx.alloc_tmp: allocate the register group for a type (two registers
for I128, one otherwise), advancing the fresh counter. -/
def alloc_tmp (tyBits : Nat) (s : LowerState) : List Nat × LowerState :=
  if tyBits = 128 then
    ([s.nextReg, s.nextReg + 1], { s with nextReg := s.nextReg + 2 })
  else
    ([s.nextReg], { s with nextReg := s.nextReg + 1 })

/-- Shallow embedding of generate_constant (lower.rs lines 66-83): mask the
constant to the type width, allocate a fresh temporary register group, and
emit the constant-materialization instruction(s) into it. -/
def generate_constant (tyBits : Nat) (c : Nat) (s : LowerState) :
    List Nat × LowerState :=
  let masked := if tyBits < 64 then c % 2 ^ tyBits else c
  let a := alloc_tmp tyBits s
  let insts :=
    if tyBits = 128 then
      [XInst.imm 64 (masked % 2 ^ 64) (a.1.headD 0),
       XInst.imm 64 (masked / 2 ^ 64) (a.1.getD 1 0)]
    else
      [XInst.imm tyBits masked (a.1.headD 0)]
  (a.1, { a.2 with emitted := a.2.emitted ++ insts })

/-- Description of the producing instruction of an input, as far as
is_mergeable_load queries it (lower.rs lines 109-153). -/
structure InsnDesc where
  numInputs : Nat
  loadTyBits : Nat
  loadTyIsVector : Bool
  memflags : Option Bool
  isLoadOpcode : Bool
  loadStoreOffset : Nat
  addrRoot : AmodeRoot
deriving DecidableEq, Repr

/-- Shallow embedding of is_mergeable_load (lower.rs lines 109-153): decide
whether the load at the producer can be folded into a memory operand, and
if so return the address input and the load offset.  The memflags field
models insn_data.memflags() with the aligned bit. -/
def is_mergeable_load (d : InsnDesc) : Option (AmodeRoot × Nat) :=
  if d.numInputs ≠ 1 then none
  else if d.loadTyBits < 32 then none
  else if d.loadTyIsVector && !(d.memflags.getD false) then none
  else if d.isLoadOpcode then some (d.addrRoot, d.loadStoreOffset)
  else none

/-- Source of an input value (machinst InputSourceInst as used here): the
unique use of a producing instruction result, or anything else. -/
inductive InputSourceInst where
  | uniqueUse (d : InsnDesc) (resultIdx : Nat)
  | nonUnique
deriving DecidableEq, Repr

/-- An IR input as resolved by get_input_as_source_or_const: an optional
known constant, the producing-instruction source, and the registers already
holding the value when it is not rematerialized. -/
structure LirInput where
  constant : Option Nat
  src : InputSourceInst
  existingRegs : List Nat
deriving DecidableEq, Repr

/-- A resolved register-or-memory operand. -/
inductive RegMem where
  | reg (r : Nat)
  | mem (addr : AmodeResult)
deriving DecidableEq, Repr

/-- Whether the operand is in register form. -/
def RegMem.isReg : RegMem → Bool
  | .reg _ => true
  | .mem _ => false

/-- Shallow embedding of put_input_in_regs (lower.rs lines 86-96): a known
constant is regenerated fresh at every use through generate_constant,
otherwise the existing registers of the producer are used (the mark-as-used
side effect is not modelled). -/
def put_input_in_regs (inp : LirInput) (tyBits : Nat) (s : LowerState) :
    List Nat × LowerState :=
  match inp.constant with
  | some c => generate_constant tyBits c s
  | none => (inp.existingRegs, s)

/-- Shallow embedding of input_to_reg_mem (lower.rs lines 157-179): a known
constant is materialized fresh into a register; a unique-use mergeable load
is folded into a memory operand through lower_to_amode (the sink_inst side
effect is not modelled); everything else stays in register form. -/
def input_to_reg_mem (inp : LirInput) (tyBits : Nat) (s : LowerState) :
    RegMem × LowerState :=
  match inp.constant with
  | some c =>
    let g := generate_constant tyBits c s
    (RegMem.reg (g.1.headD 0), g.2)
  | none =>
    match inp.src with
    | .uniqueUse d 0 =>
      match is_mergeable_load d with
      | some (addrRoot, off) => (RegMem.mem (lower_to_amode addrRoot off), s)
      | none => (RegMem.reg (inp.existingRegs.headD 0), s)
    | _ => (RegMem.reg (inp.existingRegs.headD 0), s)

/-- The four divide / remainder opcodes. -/
inductive DivOpcode where
  | udiv | urem | sdiv | srem
deriving DecidableEq, Repr

/-- Symbolic register identifiers used by the division lowering model. -/
def raxReg : Nat := 100

/-- The rdx register identifier in the division lowering model. -/
def rdxReg : Nat := 102

/-- Shallow embedding of the Udiv / Urem / Sdiv / Srem arm of
lower_insn_to_regs (lower.rs lines 2145-2242).  Register identifiers:
0 is the destination, 1 the divisor copy temporary, 2 the divisor register,
3 the dividend register.  The structure mirrors the source: move the
dividend into rax; if avoid_div_traps is set or the opcode is Srem, copy
the divisor, zero rdx and emit the guarded checked_div_or_rem_seq
meta-instruction; otherwise fill the high half (sign-extend for signed
opcodes, an explicit movzx of al for 8-bit unsigned, zero rdx otherwise)
and emit the plain hardware divide; finally move the result (rax, or rdx /
shifted rax for remainders) into the destination. -/
def lower_div_rem (op : DivOpcode) (avoidDivTraps : Bool) (tyBits : Nat) :
    List XInst :=
  let kind : DivOrRemKind :=
    match op with
    | .udiv => .unsignedDiv
    | .sdiv => .signedDiv
    | .urem => .unsignedRem
    | .srem => .signedRem
  let isDiv := kind.is_div
  let size := tyBits
  let core :=
    if avoidDivTraps || op = .srem then
      [XInst.genMove 1 2, XInst.imm 32 0 rdxReg,
       XInst.checkedDivOrRemSeq kind size]
    else
      let ext :=
        if kind.is_signed then [XInst.signExtendData size]
        else if tyBits = 8 then [XInst.movzxRmR 8 32]
        else [XInst.imm 64 0 rdxReg]
      ext ++ [XInst.div size kind.is_signed 2]
  let tail :=
    if isDiv then [XInst.genMove 0 raxReg]
    else if size = 8 then
      [XInst.shiftRightLogical 64 8, XInst.genMove 0 raxReg]
    else [XInst.genMove 0 rdxReg]
  XInst.genMove raxReg 3 :: (core ++ tail)

/-- Recognizer for the guarded checked divide meta-instruction. -/
def XInst.isCheckedDivSeq : XInst → Bool
  | .checkedDivOrRemSeq _ _ => true
  | _ => false

/-- Recognizer for the plain hardware divide. -/
def XInst.isPlainDiv : XInst → Bool
  | .div _ _ _ => true
  | _ => false

/-- Recognizer for the cdq / cqo style sign-extension of the high half. -/
def XInst.isSignExtendData : XInst → Bool
  | .signExtendData _ => true
  | _ => false

/-- Recognizer for the jump-table-sequence meta-instruction. -/
def XInst.isJmpTableSeq : XInst → Bool
  | .jmpTableSeq _ _ => true
  | _ => false

/-- Recognizer for an unconditional jump. -/
def XInst.isJmpKnown : XInst → Bool
  | .jmpKnown _ => true
  | _ => false

/-- Recognizer for a conditional jump. -/
def XInst.isJmpCond : XInst → Bool
  | .jmpCond _ _ _ => true
  | _ => false

/-- Modelled from the spec: the valid x86 zero / sign extension shapes
(ExtMode::new, args.rs is outside the provided sources); widths that do not
name an extension give none (the caller panics there). -/
def extModeNew (fromBits toBits : Nat) : Option (Nat × Nat) :=
  if (fromBits = 1 ∧ (toBits = 8 ∨ toBits = 16 ∨ toBits = 32 ∨ toBits = 64)) ∨
     (fromBits = 8 ∧ (toBits = 16 ∨ toBits = 32 ∨ toBits = 64)) ∨
     (fromBits = 16 ∧ (toBits = 32 ∨ toBits = 64)) ∨
     (fromBits = 32 ∧ toBits = 64) then
    some (fromBits, toBits)
  else none

/-- Shallow embedding of extend_input_to_reg with ExtSpec::ZeroExtendTo32
(lower.rs lines 193-228) restricted to the emitted instructions: when the
input already has 32 bits no extension instruction is emitted; otherwise a
movzx with the extension mode for (input width, 32) is emitted; widths with
no such mode make the source panic (none). -/
def extend_input_to_reg_zx32 (tyBits : Nat) : Option (List XInst) :=
  if tyBits = 32 then some []
  else
    match extModeNew tyBits 32 with
    | some (f, t) => some [XInst.movzxRmR f t]
    | none => none

/-- Shallow embedding of the BrTable arm of lower_branch_group (lower.rs
lines 3185-3252).  targets lists the successor labels, the first being the
default.  The emitted sequence is: the zero-extension of the index to 32
bits, the zeroing of the misspeculation-clamp temporary, the bounds-check
compare of the index against the table size (targets minus the default),
and the single atomic jump-table-sequence instruction.  Register
identities are not tracked (the compare is against the extended index). -/
def lower_br_table (tyBits : Nat) (targets : List Nat) : Option (List XInst) :=
  match targets with
  | [] => none
  | defaultTarget :: rest =>
    match extend_input_to_reg_zx32 tyBits with
    | none => none
    | some extInsts =>
      let jtSize := rest.length
      let cmpSize := if tyBits = 64 then 64 else 32
      some (extInsts ++
        [XInst.imm 64 0 0,
         XInst.cmpRmiRImm cmpSize jtSize 0,
         XInst.jmpTableSeq defaultTarget rest])

/-- Modelled from the spec: execution semantics of the jump-table-sequence
meta-instruction (its emission lives outside the provided sources): an
in-range index selects the corresponding table entry, any out-of-range
index transfers control to the default label. -/
def jmpTableSeqTarget (idx defaultTarget : Nat) (targets : List Nat) : Nat :=
  if h : idx < targets.length then targets.get ⟨idx, h⟩ else defaultTarget

/-- The conditional branch opcodes of a two-branch group. -/
inductive BrOp where
  | brz | brnz
deriving DecidableEq, Repr

/-- Shallow embedding of the machine-word-or-narrower branch of emit_cmp
(lower.rs lines 471-480): one compare instruction whose machine operands
are swapped relative to the IR order (the rhs becomes the machine src, the
lhs the machine dst, because the hardware computes dst - src), and the
condition code handed back unchanged. -/
def emit_cmp_scalar (cc : IntCC) (tyBits lhsReg rhsReg : Nat) :
    List XInst × IntCC :=
  ([XInst.cmpRmiRReg tyBits rhsReg lhsReg], cc)

/-- Shallow embedding of the Brz / Brnz arm of lower_branch_group for a
two-branch group whose flag input is a matched single-use Icmp of
machine-word-or-narrower type (lower.rs lines 2975-2994): re-derive the
comparison through emit_cmp, negate the condition for Brz, and emit one
conditional jump carrying both the taken and the not-taken labels; the
trailing unconditional Jump of the group contributes no instruction of its
own. -/
def lower_two_branch_brz_icmp (op0 : BrOp) (cc : IntCC)
    (tyBits lhsReg rhsReg taken notTaken : Nat) : List XInst :=
  let res := emit_cmp_scalar cc tyBits lhsReg rhsReg
  let condCode :=
    match op0 with
    | .brz => res.2.inverse
    | .brnz => res.2
  res.1 ++ [XInst.jmpCond (CC.from_intcc condCode) taken notTaken]

/-- Producer opcode of the first input of a Uunarrow, as far as the
dispatcher matches it. -/
inductive UunarrowSrc where
  | fcvtToUintSat
  | otherProducer
deriving DecidableEq, Repr

/-- Fatal compilation errors surfaced by the lowering entry points. -/
inductive CodegenError where
  | unsupported
deriving DecidableEq, Repr

/-- Outcome of lowering one instruction: the emitted instructions and
whether the diagnostic println ran. -/
structure LowerOut where
  insts : List XInst
  printedDiagnostic : Bool
deriving DecidableEq, Repr

/-- Shallow embedding of the Uunarrow arm of lower_insn_to_regs (lower.rs
lines 2747-2824).  When the first input is produced by FcvtToUintSat the
full saturating conversion sequence is emitted (registers: 0 the
destination, 1 the source, 2 the zero temporary, 3 and 4 the constant
temporaries); otherwise the arm only prints a diagnostic, emits nothing,
defines no output, and the dispatcher still returns Ok. -/
def lower_uunarrow (producer : Option UunarrowSrc) :
    Except CodegenError LowerOut :=
  match producer with
  | some .fcvtToUintSat =>
    .ok { insts :=
            [XInst.genMove 0 1,
             XInst.xmmRmR .xorpd 2,
             XInst.xmmRmR .maxpd 0,
             XInst.xmmLoadConst 0 3,
             XInst.xmmRmR .minpd 0,
             XInst.xmmRmRImm .roundpd 11 0,
             XInst.xmmLoadConst 1 4,
             XInst.xmmRmR .addpd 0,
             XInst.xmmRmRImm .shufps 136 0],
          printedDiagnostic := false }
  | _ => .ok { insts := [], printedDiagnostic := true }

/-- Recognizer for a plain register-to-register move. -/
def XInst.isMove : XInst → Bool
  | .genMove _ _ => true
  | _ => false

/-- Effect of one instruction on a register file; only the plain moves
emitted by the Iconcat and Isplit lowerings are given semantics, any other
instruction is out of scope here and leaves the file unchanged. -/
def execInst (f : Nat → Nat) : XInst → (Nat → Nat)
  | .genMove dst src => fun r => if r = dst then f src else f r
  | _ => f

/-- Execution of an instruction sequence on a register file. -/
def execInsts (insts : List XInst) (f : Nat → Nat) : Nat → Nat :=
  insts.foldl execInst f

/-- Shallow embedding of the Iconcat arm of lower_insn_to_regs (lower.rs
lines 2656-2670): two register-to-register moves placing the low input in
the low register and the high input in the high register of the I128
destination pair. -/
def lower_iconcat (lo hi d0 d1 : Nat) : List XInst :=
  [XInst.genMove d0 lo, XInst.genMove d1 hi]

/-- Shallow embedding of the Isplit arm of lower_insn_to_regs (lower.rs
lines 2672-2686): two register-to-register moves of the two halves of the
I128 source pair to the two outputs. -/
def lower_isplit (s0 s1 dLo dHi : Nat) : List XInst :=
  [XInst.genMove dLo s0, XInst.genMove dHi s1]

/-- A concrete 8-bit load producer, used to instantiate theorems. -/
def narrowLoadDesc : InsnDesc :=
  { numInputs := 1, loadTyBits := 8, loadTyIsVector := false,
    memflags := none, isLoadOpcode := true, loadStoreOffset := 0,
    addrRoot := .nonAdd }

/-- A concrete input fed by the unique use of the 8-bit load producer. -/
def narrowLoadInput : LirInput :=
  { constant := none, src := .uniqueUse narrowLoadDesc 0, existingRegs := [9] }

/-- A concrete constant input, used to instantiate theorems. -/
def constInput : LirInput :=
  { constant := some 42, src := .nonUnique, existingRegs := [] }

/-- A concrete initial lowering state, used to instantiate theorems. -/
def initState : LowerState := { nextReg := 0, emitted := [] }

/-! Helper lemmas: low-bit behaviour of the setcc / and / or combination. -/

/-- The low bit of a register written by setcc is the tested condition. -/
theorem setcc64_mod_two (j : Nat) (b : Bool) :
    setcc64 j b % 2 = if b then 1 else 0 := by
  unfold setcc64
  cases b <;> simp <;> omega

/-- The parity of a Nat through its lowest bit. -/
theorem mod_two_eq_testBit (x : Nat) : x % 2 = if x.testBit 0 then 1 else 0 := by
  rcases Nat.mod_two_eq_zero_or_one x with h | h <;>
    simp [Nat.testBit_zero, h]

/-- Lowest bit of a setcc result. -/
theorem setcc64_testBit_zero (j : Nat) (b : Bool) :
    (setcc64 j b).testBit 0 = b := by
  rw [Nat.testBit_zero, setcc64_mod_two]
  cases b <;> simp

/-- Combined value of the Equal sequence: and of the two setcc bits. -/
theorem combine_and_bit (j1 j2 : Nat) (b1 b2 : Bool) :
    (setcc64 j2 b2 &&& setcc64 j1 b1) &&& 1 = (if b2 && b1 then 1 else 0) := by
  rw [Nat.and_one_is_mod, mod_two_eq_testBit, Nat.testBit_and,
    setcc64_testBit_zero, setcc64_testBit_zero]

/-- Combined value of the NotEqual sequence: or of the two setcc bits. -/
theorem combine_or_bit (j1 j2 : Nat) (b1 b2 : Bool) :
    (setcc64 j2 b2 ||| setcc64 j1 b1) &&& 1 = (if b2 || b1 then 1 else 0) := by
  rw [Nat.and_one_is_mod, mod_two_eq_testBit, Nat.testBit_or,
    setcc64_testBit_zero, setcc64_testBit_zero]

/-- Combined value of the relational sequence: strict-high or
(high-equal and low-unsigned). -/
theorem combine_or_and_bit (j1 j2 j3 : Nat) (b1 b2 b3 : Bool) :
    ((setcc64 j3 b3 &&& setcc64 j2 b2) ||| setcc64 j1 b1) &&& 1 =
      (if b1 || (b2 && b3) then 1 else 0) := by
  rw [Nat.and_one_is_mod, mod_two_eq_testBit, Nat.testBit_or, Nat.testBit_and,
    setcc64_testBit_zero, setcc64_testBit_zero, setcc64_testBit_zero]
  cases b1 <;> cases b2 <;> cases b3 <;> rfl

/-! Helper lemmas: lexicographic decomposition of 128-bit comparison. -/

/-- The signed reading of a 128-bit value decomposes through the signed
reading of its high half. -/
theorem toInt128_halves (hi lo : Nat) (hhi : hi < 2 ^ 64) (hlo : lo < 2 ^ 64) :
    toInt128 (valHalves hi lo) = toInt64 hi * 2 ^ 64 + lo := by
  unfold toInt128 toInt64 valHalves
  rcases Nat.lt_or_ge hi (2 ^ 63) with h | h
  · rw [if_pos (by omega), if_pos h]
    push_cast
    ring
  · rw [if_neg (by omega), if_neg (by omega)]
    push_cast
    ring

/-- Lexicographic strict order on (high, low) pairs over Int. -/
theorem int_lex_lt (X Y r s : Int) (hr0 : 0 ≤ r) (hr : r < 2 ^ 64)
    (hs0 : 0 ≤ s) (hs : s < 2 ^ 64) :
    X * 2 ^ 64 + r < Y * 2 ^ 64 + s ↔ X < Y ∨ (X = Y ∧ r < s) := by
  omega

/-- Lexicographic order-or-equal on (high, low) pairs over Int. -/
theorem int_lex_le (X Y r s : Int) (hr0 : 0 ≤ r) (hr : r < 2 ^ 64)
    (hs0 : 0 ≤ s) (hs : s < 2 ^ 64) :
    X * 2 ^ 64 + r ≤ Y * 2 ^ 64 + s ↔ X < Y ∨ (X = Y ∧ r ≤ s) := by
  omega

/-- The signed reading of a 64-bit pattern is injective. -/
theorem toInt64_inj (a b : Nat) (ha : a < 2 ^ 64) (hb : b < 2 ^ 64) :
    toInt64 a = toInt64 b ↔ a = b := by
  unfold toInt64
  split <;> split <;> omega

/-- Signed 128-bit strict comparison as a lexicographic condition on the
halves. -/
theorem lex_slt (hi1 lo1 hi2 lo2 : Nat) (h1 : hi1 < 2 ^ 64) (h2 : lo1 < 2 ^ 64)
    (h3 : hi2 < 2 ^ 64) (h4 : lo2 < 2 ^ 64) :
    (toInt64 hi1 < toInt64 hi2 ∨ (hi1 = hi2 ∧ lo1 < lo2)) ↔
      toInt128 (valHalves hi1 lo1) < toInt128 (valHalves hi2 lo2) := by
  rw [toInt128_halves _ _ h1 h2, toInt128_halves _ _ h3 h4,
    int_lex_lt _ _ _ _ (Int.natCast_nonneg _) (by exact_mod_cast h2)
      (Int.natCast_nonneg _) (by exact_mod_cast h4),
    toInt64_inj _ _ h1 h3]
  simp

/-- Signed 128-bit comparison-or-equal as a lexicographic condition on the
halves. -/
theorem lex_sle (hi1 lo1 hi2 lo2 : Nat) (h1 : hi1 < 2 ^ 64) (h2 : lo1 < 2 ^ 64)
    (h3 : hi2 < 2 ^ 64) (h4 : lo2 < 2 ^ 64) :
    (toInt64 hi1 < toInt64 hi2 ∨ (hi1 = hi2 ∧ lo1 ≤ lo2)) ↔
      toInt128 (valHalves hi1 lo1) ≤ toInt128 (valHalves hi2 lo2) := by
  rw [toInt128_halves _ _ h1 h2, toInt128_halves _ _ h3 h4,
    int_lex_le _ _ _ _ (Int.natCast_nonneg _) (by exact_mod_cast h2)
      (Int.natCast_nonneg _) (by exact_mod_cast h4),
    toInt64_inj _ _ h1 h3]
  simp

/-- Unsigned 128-bit strict comparison as a lexicographic condition on the
halves. -/
theorem lex_ult (hi1 lo1 hi2 lo2 : Nat) (h2 : lo1 < 2 ^ 64) (h4 : lo2 < 2 ^ 64) :
    (hi1 < hi2 ∨ (hi1 = hi2 ∧ lo1 < lo2)) ↔
      valHalves hi1 lo1 < valHalves hi2 lo2 := by
  unfold valHalves
  omega

/-- Unsigned 128-bit comparison-or-equal as a lexicographic condition on
the halves. -/
theorem lex_ule (hi1 lo1 hi2 lo2 : Nat) (h2 : lo1 < 2 ^ 64) (h4 : lo2 < 2 ^ 64) :
    (hi1 < hi2 ∨ (hi1 = hi2 ∧ lo1 ≤ lo2)) ↔
      valHalves hi1 lo1 ≤ valHalves hi2 lo2 := by
  unfold valHalves
  omega
/-- Congruence for a conjunction of decides against a single decide. -/
theorem decide_and_congr (p1 p2 q : Prop) [Decidable p1] [Decidable p2]
    [Decidable q] (h : (p1 ∧ p2) ↔ q) : (decide p1 && decide p2) = decide q := by
  rw [← Bool.decide_and]
  exact decide_eq_decide.mpr h

/-- Congruence for a disjunction of decides against a single decide. -/
theorem decide_or_congr (p1 p2 q : Prop) [Decidable p1] [Decidable p2]
    [Decidable q] (h : (p1 ∨ p2) ↔ q) : (decide p1 || decide p2) = decide q := by
  rw [← Bool.decide_or]
  exact decide_eq_decide.mpr h

/-- Congruence for the or-of-and decide combination against a single
decide. -/
theorem decide_or_and_congr (p1 p2 p3 q : Prop) [Decidable p1] [Decidable p2]
    [Decidable p3] [Decidable q] (h : (p1 ∨ (p2 ∧ p3)) ↔ q) :
    (decide p1 || (decide p2 && decide p3)) = decide q := by
  rw [← Bool.decide_and, ← Bool.decide_or]
  exact decide_eq_decide.mpr h

/-- One-zero selection only depends on the Bool. -/
theorem ite_bit_congr (a b : Bool) (h : a = b) :
    (if a then (1 : Nat) else 0) = if b then 1 else 0 := by
  rw [h]

/-! Claim theorems. -/

/-- C1: for every 128-bit integer comparison lowered by emit_cmp with
condition Equal, NotEqual, or any signed / unsigned ordered relational
condition, the emitted sequence (two 64-bit compares, setcc of the partial
conditions, bitwise and / or combination, and a final and with immediate 1
masking to bit 0) computes a single-bit result equal to the reference
128-bit comparison of (lhs_hi, lhs_lo) against (rhs_hi, rhs_lo), for all
64-bit half values and all previous contents of the three temporaries. -/
theorem emit_cmp_i128_matches_reference (cc : IntCC)
    (lhsHi lhsLo rhsHi rhsLo j1 j2 j3 r : Nat) (rc : IntCC)
    (hlh : lhsHi < 2 ^ 64) (hll : lhsLo < 2 ^ 64)
    (hrh : rhsHi < 2 ^ 64) (hrl : rhsLo < 2 ^ 64)
    (hres : emit_cmp_i128 cc lhsLo lhsHi rhsLo rhsHi j1 j2 j3 = some (r, rc)) :
    r = (if refCmp128 cc (valHalves lhsHi lhsLo) (valHalves rhsHi rhsLo)
         then 1 else 0) ∧ rc = IntCC.NotEqual := by
  cases cc
  case Overflow => simp [emit_cmp_i128] at hres
  case NotOverflow => simp [emit_cmp_i128] at hres
  case Equal =>
    simp only [emit_cmp_i128, Option.some.injEq, Prod.mk.injEq] at hres
    obtain ⟨hr, hc⟩ := hres
    subst hr; subst hc
    refine ⟨?_, rfl⟩
    rw [combine_and_bit]
    simp only [intCCHolds64, refCmp128]
    exact ite_bit_congr _ _ (decide_and_congr _ _ _
      (by unfold valHalves; omega))
  case NotEqual =>
    simp only [emit_cmp_i128, Option.some.injEq, Prod.mk.injEq] at hres
    obtain ⟨hr, hc⟩ := hres
    subst hr; subst hc
    refine ⟨?_, rfl⟩
    rw [combine_or_bit]
    simp only [intCCHolds64, refCmp128]
    exact ite_bit_congr _ _ (decide_or_congr _ _ _
      (by unfold valHalves; omega))
  case SignedLessThan =>
    simp only [emit_cmp_i128, Option.some.injEq, Prod.mk.injEq,
      IntCC.without_equal, IntCC.unsigned] at hres
    obtain ⟨hr, hc⟩ := hres
    subst hr; subst hc
    refine ⟨?_, rfl⟩
    rw [combine_or_and_bit]
    simp only [intCCHolds64, refCmp128]
    exact ite_bit_congr _ _ (decide_or_and_congr _ _ _ _
      (lex_slt lhsHi lhsLo rhsHi rhsLo hlh hll hrh hrl))
  case SignedLessThanOrEqual =>
    simp only [emit_cmp_i128, Option.some.injEq, Prod.mk.injEq,
      IntCC.without_equal, IntCC.unsigned] at hres
    obtain ⟨hr, hc⟩ := hres
    subst hr; subst hc
    refine ⟨?_, rfl⟩
    rw [combine_or_and_bit]
    simp only [intCCHolds64, refCmp128]
    exact ite_bit_congr _ _ (decide_or_and_congr _ _ _ _
      (lex_sle lhsHi lhsLo rhsHi rhsLo hlh hll hrh hrl))
  case SignedGreaterThan =>
    simp only [emit_cmp_i128, Option.some.injEq, Prod.mk.injEq,
      IntCC.without_equal, IntCC.unsigned] at hres
    obtain ⟨hr, hc⟩ := hres
    subst hr; subst hc
    refine ⟨?_, rfl⟩
    rw [combine_or_and_bit]
    simp only [intCCHolds64, refCmp128]
    refine ite_bit_congr _ _ (decide_or_and_congr _ _ _ _ ?_)
    rw [show (lhsHi = rhsHi) ↔ (rhsHi = lhsHi) from eq_comm]
    exact lex_slt rhsHi rhsLo lhsHi lhsLo hrh hrl hlh hll
  case SignedGreaterThanOrEqual =>
    simp only [emit_cmp_i128, Option.some.injEq, Prod.mk.injEq,
      IntCC.without_equal, IntCC.unsigned] at hres
    obtain ⟨hr, hc⟩ := hres
    subst hr; subst hc
    refine ⟨?_, rfl⟩
    rw [combine_or_and_bit]
    simp only [intCCHolds64, refCmp128]
    refine ite_bit_congr _ _ (decide_or_and_congr _ _ _ _ ?_)
    rw [show (lhsHi = rhsHi) ↔ (rhsHi = lhsHi) from eq_comm]
    exact lex_sle rhsHi rhsLo lhsHi lhsLo hrh hrl hlh hll
  case UnsignedLessThan =>
    simp only [emit_cmp_i128, Option.some.injEq, Prod.mk.injEq,
      IntCC.without_equal, IntCC.unsigned] at hres
    obtain ⟨hr, hc⟩ := hres
    subst hr; subst hc
    refine ⟨?_, rfl⟩
    rw [combine_or_and_bit]
    simp only [intCCHolds64, refCmp128]
    exact ite_bit_congr _ _ (decide_or_and_congr _ _ _ _
      (lex_ult lhsHi lhsLo rhsHi rhsLo hll hrl))
  case UnsignedLessThanOrEqual =>
    simp only [emit_cmp_i128, Option.some.injEq, Prod.mk.injEq,
      IntCC.without_equal, IntCC.unsigned] at hres
    obtain ⟨hr, hc⟩ := hres
    subst hr; subst hc
    refine ⟨?_, rfl⟩
    rw [combine_or_and_bit]
    simp only [intCCHolds64, refCmp128]
    exact ite_bit_congr _ _ (decide_or_and_congr _ _ _ _
      (lex_ule lhsHi lhsLo rhsHi rhsLo hll hrl))
  case UnsignedGreaterThan =>
    simp only [emit_cmp_i128, Option.some.injEq, Prod.mk.injEq,
      IntCC.without_equal, IntCC.unsigned] at hres
    obtain ⟨hr, hc⟩ := hres
    subst hr; subst hc
    refine ⟨?_, rfl⟩
    rw [combine_or_and_bit]
    simp only [intCCHolds64, refCmp128]
    refine ite_bit_congr _ _ (decide_or_and_congr _ _ _ _ ?_)
    rw [show (lhsHi = rhsHi) ↔ (rhsHi = lhsHi) from eq_comm]
    exact lex_ult rhsHi rhsLo lhsHi lhsLo hrl hll
  case UnsignedGreaterThanOrEqual =>
    simp only [emit_cmp_i128, Option.some.injEq, Prod.mk.injEq,
      IntCC.without_equal, IntCC.unsigned] at hres
    obtain ⟨hr, hc⟩ := hres
    subst hr; subst hc
    refine ⟨?_, rfl⟩
    rw [combine_or_and_bit]
    simp only [intCCHolds64, refCmp128]
    refine ite_bit_congr _ _ (decide_or_and_congr _ _ _ _ ?_)
    rw [show (lhsHi = rhsHi) ↔ (rhsHi = lhsHi) from eq_comm]
    exact lex_ule rhsHi rhsLo lhsHi lhsLo hrl hll

/-- Witness for C1: the adjacent pair lhs = (0, 0), rhs = (0, 1) is
signed-less-than, and the emitted sequence computes 1 on it. -/
theorem emit_cmp_i128_matches_reference_witness :
    (0 : Nat) < 2 ^ 64 ∧ (1 : Nat) < 2 ^ 64 ∧
    emit_cmp_i128 .SignedLessThan 0 0 1 0 5 6 7 = some (1, .NotEqual) ∧
    ((1 : Nat) =
      (if refCmp128 .SignedLessThan (valHalves 0 0) (valHalves 0 1)
       then 1 else 0) ∧ IntCC.NotEqual = IntCC.NotEqual) :=
  ⟨by decide, by decide, by decide,
    emit_cmp_i128_matches_reference .SignedLessThan 0 0 0 1 5 6 7 1 .NotEqual
      (by decide) (by decide) (by decide) (by decide) (by decide)⟩

/-- The sign-extension of a 32-bit pattern fits in 64 bits. -/
theorem sext32to64_lt (x : Nat) : sext32to64 x < 2 ^ 64 := by
  unfold sext32to64
  split <;> omega

/-- The sign-extension only depends on the low 32 bits. -/
theorem sext32to64_mod32 (x : Nat) : sext32to64 (x % 2 ^ 32) = sext32to64 x := by
  unfold sext32to64
  rw [Nat.mod_mod_of_dvd x dvd_rfl]

/-- A successful foldCandidate commits exactly the checked displacement:
the committed 32 bits sign-extend to the 64-bit wrapping sum of the static
offset and the folded constant, and the sign-extension check held. -/
theorem foldCandidate_spec (off : Nat) (op : AmodeOperand) (d c : Nat)
    (h : foldCandidate off op = some (d, c)) :
    sext32to64 d = (sext32to64 off + c) % 2 ^ 64 ∧
    low32_will_sign_extend_to_64 ((sext32to64 off + c) % 2 ^ 64) = true := by
  cases op
  case otherReg => simp [foldCandidate] at h
  case shlConst amt => simp [foldCandidate] at h
  case shlNonConst => simp [foldCandidate] at h
  case uextNonConst => simp [foldCandidate] at h
  case uextOfConst bits cst =>
    simp only [foldCandidate] at h
    split at h
    · rename_i hchk
      simp only [Option.some.injEq, Prod.mk.injEq] at h
      obtain ⟨hd, hc2⟩ := h
      subst hd; subst hc2
      refine ⟨?_, hchk⟩
      rw [sext32to64_mod32]
      unfold low32_will_sign_extend_to_64 at hchk
      have h1 := of_decide_eq_true hchk
      omega
    · exact absurd h (by simp)
  case constVal cv =>
    simp only [foldCandidate] at h
    split at h
    · rename_i hchk
      simp only [Option.some.injEq, Prod.mk.injEq] at h
      obtain ⟨hd, hc2⟩ := h
      subst hd; subst hc2
      refine ⟨?_, hchk⟩
      rw [sext32to64_mod32]
      unfold low32_will_sign_extend_to_64 at hchk
      have h1 := of_decide_eq_true hchk
      omega
    · exact absurd h (by simp)

/-- C3: for every address lowered by lower_to_amode, the committed 32-bit
displacement always sign-extends to the 64-bit wrapping sum of the static
offset and the folded constants; a constant is folded only when that sum
passes the 32-bit sign-extension check, and when nothing is folded the
committed displacement is the static offset itself (the operands stay in
registers as explicit arithmetic). -/
theorem lower_to_amode_displacement_invariant (root : AmodeRoot) (off : Nat)
    (hoff : off < 2 ^ 32) :
    sext32to64 ((lower_to_amode root off).disp32) =
      (sext32to64 off + ((lower_to_amode root off).folded).sum) % 2 ^ 64 ∧
    (∀ c ∈ (lower_to_amode root off).folded,
      low32_will_sign_extend_to_64 ((sext32to64 off + c) % 2 ^ 64) = true) ∧
    ((lower_to_amode root off).folded = [] →
      (lower_to_amode root off).disp32 = off) := by
  have hsx := sext32to64_lt off
  cases root
  case nonAdd =>
    refine ⟨?_, ?_, fun _ => rfl⟩
    · simp only [lower_to_amode, List.sum_nil]
      omega
    · intro c hc
      simp [lower_to_amode] at hc
  case iadd a b =>
    rcases hA : matches_small_constant_shift a with _ | amtA
    · rcases hB : matches_small_constant_shift b with _ | amtB
      · rcases hFa : foldCandidate off a with _ | ⟨da, ca⟩
        · rcases hFb : foldCandidate off b with _ | ⟨db, cb⟩
          · have hred : lower_to_amode (.iadd a b) off =
                { disp32 := off, folded := [], usesIndex := true, shift := 0 } := by
              simp only [lower_to_amode, hA, hB, hFa, hFb]
            rw [hred]
            refine ⟨?_, ?_, fun _ => rfl⟩
            · simp only [List.sum_nil]
              omega
            · intro c hc
              simp at hc
          · obtain ⟨h1, h2⟩ := foldCandidate_spec off b db cb hFb
            have hred : lower_to_amode (.iadd a b) off =
                { disp32 := db, folded := [cb], usesIndex := false, shift := 0 } := by
              simp only [lower_to_amode, hA, hB, hFa, hFb]
            rw [hred]
            refine ⟨?_, ?_, ?_⟩
            · simpa using h1
            · intro c hc
              simp at hc
              subst hc
              exact h2
            · intro hemp
              simp at hemp
        · obtain ⟨h1, h2⟩ := foldCandidate_spec off a da ca hFa
          have hred : lower_to_amode (.iadd a b) off =
              { disp32 := da, folded := [ca], usesIndex := false, shift := 0 } := by
            simp only [lower_to_amode, hA, hB, hFa]
          rw [hred]
          refine ⟨?_, ?_, ?_⟩
          · simpa using h1
          · intro c hc
            simp at hc
            subst hc
            exact h2
          · intro hemp
            simp at hemp
      · have hred : lower_to_amode (.iadd a b) off =
            { disp32 := off, folded := [], usesIndex := true, shift := amtB } := by
          simp only [lower_to_amode, hA, hB]
        rw [hred]
        refine ⟨?_, ?_, fun _ => rfl⟩
        · simp only [List.sum_nil]
          omega
        · intro c hc
          simp at hc
    · have hred : lower_to_amode (.iadd a b) off =
          { disp32 := off, folded := [], usesIndex := true, shift := amtA } := by
        simp only [lower_to_amode, hA]
      rw [hred]
      refine ⟨?_, ?_, fun _ => rfl⟩
      · simp only [List.sum_nil]
        omega
      · intro c hc
        simp at hc

/-- Witness for C3: folding a constant 100 under a zero static offset. -/
theorem lower_to_amode_displacement_invariant_witness :
    (0 : Nat) < 2 ^ 32 ∧
    (sext32to64 ((lower_to_amode (.iadd (.constVal 100) .otherReg) 0).disp32) =
      (sext32to64 0 +
        ((lower_to_amode (.iadd (.constVal 100) .otherReg) 0).folded).sum) %
        2 ^ 64 ∧
    (∀ c ∈ (lower_to_amode (.iadd (.constVal 100) .otherReg) 0).folded,
      low32_will_sign_extend_to_64 ((sext32to64 0 + c) % 2 ^ 64) = true) ∧
    ((lower_to_amode (.iadd (.constVal 100) .otherReg) 0).folded = [] →
      (lower_to_amode (.iadd (.constVal 100) .otherReg) 0).disp32 = 0)) :=
  ⟨by decide,
    lower_to_amode_displacement_invariant (.iadd (.constVal 100) .otherReg) 0
      (by decide)⟩

/-- C2: an input produced by a load of a type narrower than 32 bits is
never folded into a memory operand: is_mergeable_load returns none for it,
and input_to_reg_mem resolves the input in register form. -/
theorem narrow_load_never_merged (d : InsnDesc) (inp : LirInput)
    (tyBits : Nat) (s : LowerState)
    (hbits : d.loadTyBits < 32) (hsrc : inp.src = .uniqueUse d 0) :
    is_mergeable_load d = none ∧
    ((input_to_reg_mem inp tyBits s).1).isReg = true := by
  have hm : is_mergeable_load d = none := by
    unfold is_mergeable_load
    by_cases h1 : d.numInputs ≠ 1
    · rw [if_pos h1]
    · rw [if_neg h1, if_pos hbits]
  refine ⟨hm, ?_⟩
  cases hc : inp.constant with
  | some c => simp [input_to_reg_mem, hc, RegMem.isReg]
  | none => simp [input_to_reg_mem, hc, hsrc, hm, RegMem.isReg]

/-- Witness for C2: an 8-bit load input stays in register form. -/
theorem narrow_load_never_merged_witness :
    narrowLoadDesc.loadTyBits < 32 ∧
    narrowLoadInput.src = .uniqueUse narrowLoadDesc 0 ∧
    (is_mergeable_load narrowLoadDesc = none ∧
     ((input_to_reg_mem narrowLoadInput 8 initState).1).isReg = true) :=
  ⟨by decide, by decide,
    narrow_load_never_merged narrowLoadDesc narrowLoadInput 8 initState
      (by decide) (by decide)⟩

/-- generate_constant allocates only fresh registers (at or above the
incoming counter, below the outgoing one), advances the counter, and
appends a nonempty materialization sequence to the emitted list. -/
theorem generate_constant_fresh (tyBits c : Nat) (s : LowerState) :
    (∀ x ∈ (generate_constant tyBits c s).1,
      s.nextReg ≤ x ∧ x < ((generate_constant tyBits c s).2).nextReg) ∧
    s.nextReg ≤ ((generate_constant tyBits c s).2).nextReg ∧
    (∃ seq, seq ≠ [] ∧
      ((generate_constant tyBits c s).2).emitted = s.emitted ++ seq) := by
  by_cases h : tyBits = 128
  · refine ⟨?_, ?_, ?_⟩
    · intro x hx
      simp [generate_constant, alloc_tmp, h] at hx ⊢
      omega
    · simp [generate_constant, alloc_tmp, h]
    · exact ⟨[XInst.imm 64 ((if (128 : Nat) < 64 then c % 2 ^ 128 else c) % 2 ^ 64) s.nextReg,
          XInst.imm 64 ((if (128 : Nat) < 64 then c % 2 ^ 128 else c) / 2 ^ 64) (s.nextReg + 1)],
        by simp, by simp [generate_constant, alloc_tmp, h]⟩
  · refine ⟨?_, ?_, ?_⟩
    · intro x hx
      simp [generate_constant, alloc_tmp, h] at hx ⊢
      omega
    · simp [generate_constant, alloc_tmp, h]
    · exact ⟨[XInst.imm tyBits (if tyBits < 64 then c % 2 ^ tyBits else c) s.nextReg],
        by simp, by simp [generate_constant, alloc_tmp, h]⟩

/-- C4: a known-constant input is materialized fresh at every call of
put_input_in_regs: each call returns only registers allocated within that
call, consecutive calls return disjoint register sets, and each call
appends its own nonempty materialization sequence, so a constant used N
times yields N independent sequences and no register holding the constant
is reused across use sites. -/
theorem constant_materialized_fresh_per_use (inp : LirInput) (tyBits c : Nat)
    (s : LowerState) (hc : inp.constant = some c) :
    (∀ x ∈ (put_input_in_regs inp tyBits s).1,
      s.nextReg ≤ x ∧ x < ((put_input_in_regs inp tyBits s).2).nextReg) ∧
    (∀ x ∈ (put_input_in_regs inp tyBits ((put_input_in_regs inp tyBits s).2)).1,
      ((put_input_in_regs inp tyBits s).2).nextReg ≤ x) ∧
    (∀ x ∈ (put_input_in_regs inp tyBits s).1,
      ∀ y ∈ (put_input_in_regs inp tyBits ((put_input_in_regs inp tyBits s).2)).1,
      x ≠ y) ∧
    (∃ seq, seq ≠ [] ∧
      ((put_input_in_regs inp tyBits s).2).emitted = s.emitted ++ seq) ∧
    (∃ seq, seq ≠ [] ∧
      ((put_input_in_regs inp tyBits ((put_input_in_regs inp tyBits s).2)).2).emitted =
        ((put_input_in_regs inp tyBits s).2).emitted ++ seq) := by
  have e2 : ∀ s2 : LowerState,
      put_input_in_regs inp tyBits s2 = generate_constant tyBits c s2 := by
    intro s2
    unfold put_input_in_regs
    rw [hc]
  simp only [e2]
  obtain ⟨f1, n1, x1⟩ := generate_constant_fresh tyBits c s
  obtain ⟨f2, n2, x2⟩ :=
    generate_constant_fresh tyBits c ((generate_constant tyBits c s).2)
  refine ⟨f1, fun x hx => (f2 x hx).1, ?_, x1, x2⟩
  intro x hx y hy
  have h1 := (f1 x hx).2
  have h2 := (f2 y hy).1
  omega

/-- Witness for C4: the constant 42 materialized twice from a fresh
state gives registers below / at-or-above the intermediate counter. -/
theorem constant_materialized_fresh_per_use_witness :
    constInput.constant = some 42 ∧
    ((∀ x ∈ (put_input_in_regs constInput 32 initState).1,
      initState.nextReg ≤ x ∧
        x < ((put_input_in_regs constInput 32 initState).2).nextReg) ∧
    (∀ x ∈ (put_input_in_regs constInput 32
        ((put_input_in_regs constInput 32 initState).2)).1,
      ((put_input_in_regs constInput 32 initState).2).nextReg ≤ x) ∧
    (∀ x ∈ (put_input_in_regs constInput 32 initState).1,
      ∀ y ∈ (put_input_in_regs constInput 32
        ((put_input_in_regs constInput 32 initState).2)).1,
      x ≠ y) ∧
    (∃ seq, seq ≠ [] ∧
      ((put_input_in_regs constInput 32 initState).2).emitted =
        initState.emitted ++ seq) ∧
    (∃ seq, seq ≠ [] ∧
      ((put_input_in_regs constInput 32
        ((put_input_in_regs constInput 32 initState).2)).2).emitted =
        ((put_input_in_regs constInput 32 initState).2).emitted ++ seq)) :=
  ⟨by decide,
    constant_materialized_fresh_per_use constInput 32 42 initState (by decide)⟩

/-- C5: the guarded atomic checked-divide meta-instruction is emitted if
and only if the avoid_div_traps flag is set or the opcode is Srem; in all
other cases the lowering emits the plain hardware divide after
sign-extending (signed opcode) or zero-extending (unsigned opcodes, via a
movzx of al for 8 bits or a zeroing of rdx otherwise) the high half. -/
theorem div_rem_checked_seq_guard (op : DivOpcode) (avoid : Bool)
    (tyBits : Nat) :
    ((lower_div_rem op avoid tyBits).any XInst.isCheckedDivSeq =
      (avoid || decide (op = .srem))) ∧
    (avoid = false → op ≠ .srem →
      ((lower_div_rem op avoid tyBits).any XInst.isPlainDiv = true ∧
       (op = .sdiv →
         (lower_div_rem op avoid tyBits).any XInst.isSignExtendData = true) ∧
       ((op = .udiv ∨ op = .urem) → tyBits = 8 →
         XInst.movzxRmR 8 32 ∈ lower_div_rem op avoid tyBits) ∧
       ((op = .udiv ∨ op = .urem) → tyBits ≠ 8 →
         XInst.imm 64 0 rdxReg ∈ lower_div_rem op avoid tyBits))) := by
  constructor
  · cases op <;> cases avoid <;>
      by_cases h8 : tyBits = 8 <;>
        simp [lower_div_rem, h8, XInst.isCheckedDivSeq,
          DivOrRemKind.is_div, DivOrRemKind.is_signed]
  · intro ha hs
    subst ha
    cases op
    case srem => exact absurd rfl hs
    case sdiv =>
      by_cases h8 : tyBits = 8 <;>
        simp [lower_div_rem, h8, XInst.isPlainDiv, XInst.isSignExtendData,
          DivOrRemKind.is_div, DivOrRemKind.is_signed]
    case udiv =>
      by_cases h8 : tyBits = 8 <;>
        simp [lower_div_rem, h8, XInst.isPlainDiv, XInst.isSignExtendData,
          DivOrRemKind.is_div, DivOrRemKind.is_signed]
    case urem =>
      by_cases h8 : tyBits = 8 <;>
        simp [lower_div_rem, h8, XInst.isPlainDiv, XInst.isSignExtendData,
          DivOrRemKind.is_div, DivOrRemKind.is_signed]

/-- Witness for C5: an unguarded 32-bit unsigned divide emits the plain
hardware divide with a zeroed rdx and no checked sequence. -/
theorem div_rem_checked_seq_guard_witness :
    ((lower_div_rem .udiv false 32).any XInst.isCheckedDivSeq =
      (false || decide (DivOpcode.udiv = .srem))) ∧
    ((lower_div_rem .udiv false 32).any XInst.isPlainDiv = true ∧
     (DivOpcode.udiv = .sdiv →
       (lower_div_rem .udiv false 32).any XInst.isSignExtendData = true) ∧
     ((DivOpcode.udiv = .udiv ∨ DivOpcode.udiv = .urem) → (32 : Nat) = 8 →
       XInst.movzxRmR 8 32 ∈ lower_div_rem .udiv false 32) ∧
     ((DivOpcode.udiv = .udiv ∨ DivOpcode.udiv = .urem) → (32 : Nat) ≠ 8 →
       XInst.imm 64 0 rdxReg ∈ lower_div_rem .udiv false 32)) :=
  ⟨(div_rem_checked_seq_guard .udiv false 32).1,
    (div_rem_checked_seq_guard .udiv false 32).2 rfl (by decide)⟩

/-- C6: a BrTable with a default successor and further table entries
lowers to the zero-extension of the index to 32 bits, one bounds-check
compare of the index against the table size, and one atomic
jump-table-sequence instruction whose default target is the first
successor and whose table lists the remaining successors; under the
jump-table-sequence semantics an index at or above the table size goes to
the default label and an in-range index i goes to table entry i. -/
theorem br_table_lowering_correct (tyBits d : Nat) (rest : List Nat)
    (hty : tyBits = 8 ∨ tyBits = 16 ∨ tyBits = 32) :
    lower_br_table tyBits (d :: rest) =
      some ((if tyBits = 32 then [] else [XInst.movzxRmR tyBits 32]) ++
        [XInst.imm 64 0 0,
         XInst.cmpRmiRImm 32 rest.length 0,
         XInst.jmpTableSeq d rest]) ∧
    ((if tyBits = 32 then ([] : List XInst) else [XInst.movzxRmR tyBits 32]) ++
        [XInst.imm 64 0 0,
         XInst.cmpRmiRImm 32 rest.length 0,
         XInst.jmpTableSeq d rest]).countP XInst.isJmpTableSeq = 1 ∧
    (∀ i, rest.length ≤ i → jmpTableSeqTarget i d rest = d) ∧
    (∀ i, i < rest.length → jmpTableSeqTarget i d rest = rest.getD i 0) := by
  refine ⟨?_, ?_, ?_, ?_⟩
  · rcases hty with rfl | rfl | rfl <;>
      simp [lower_br_table, extend_input_to_reg_zx32, extModeNew]
  · rcases hty with rfl | rfl | rfl <;>
      simp [List.countP_cons, XInst.isJmpTableSeq]
  · intro i h
    unfold jmpTableSeqTarget
    rw [dif_neg (by omega)]
  · intro i h
    unfold jmpTableSeqTarget
    rw [dif_pos h]
    exact (List.getD_eq_get rest 0 h).symm

/-- Witness for C6: an 8-bit index over a table of two entries; index 2 is
out of range and goes to the default, index 1 selects the second entry. -/
theorem br_table_lowering_correct_witness :
    ((8 : Nat) = 8 ∨ (8 : Nat) = 16 ∨ (8 : Nat) = 32) ∧
    lower_br_table 8 [7, 3, 4] =
      some ((if (8 : Nat) = 32 then [] else [XInst.movzxRmR 8 32]) ++
        [XInst.imm 64 0 0,
         XInst.cmpRmiRImm 32 ([3, 4] : List Nat).length 0,
         XInst.jmpTableSeq 7 [3, 4]]) ∧
    (∀ i, ([3, 4] : List Nat).length ≤ i → jmpTableSeqTarget i 7 [3, 4] = 7) :=
  ⟨Or.inl rfl,
    (br_table_lowering_correct 8 7 [3, 4] (Or.inl rfl)).1,
    (br_table_lowering_correct 8 7 [3, 4] (Or.inl rfl)).2.2.1⟩

/-- C7: a two-branch group of a Brz taking a single-use machine-word
Icmp with condition cc, followed by a Jump, lowers to exactly one compare
instruction whose machine operands are swapped relative to the IR order
(the rhs becomes the machine src operand) followed by exactly one
conditional jump on the inverse of cc, with the Jump target only occupying
the not-taken slot and no separate unconditional jump emitted. -/
theorem brz_icmp_two_branch_lowering (cc : IntCC)
    (tyBits lhsReg rhsReg taken notTaken : Nat) :
    lower_two_branch_brz_icmp .brz cc tyBits lhsReg rhsReg taken notTaken =
      [XInst.cmpRmiRReg tyBits rhsReg lhsReg,
       XInst.jmpCond (CC.from_intcc cc.inverse) taken notTaken] ∧
    (lower_two_branch_brz_icmp .brz cc tyBits lhsReg rhsReg taken
        notTaken).countP XInst.isJmpCond = 1 ∧
    (lower_two_branch_brz_icmp .brz cc tyBits lhsReg rhsReg taken
        notTaken).countP XInst.isJmpKnown = 0 := by
  refine ⟨rfl, ?_, ?_⟩ <;>
    simp [lower_two_branch_brz_icmp, emit_cmp_scalar, List.countP_cons,
      XInst.isJmpCond, XInst.isJmpKnown]

/-- C8: lowering a Uunarrow whose first input is not produced by a
FcvtToUintSat emits no machine instructions, prints a diagnostic, and
still returns Ok rather than failing the compilation. -/
theorem uunarrow_unmatched_silent_ok (producer : Option UunarrowSrc)
    (h : producer ≠ some .fcvtToUintSat) :
    lower_uunarrow producer =
      .ok { insts := [], printedDiagnostic := true } := by
  cases producer with
  | none => rfl
  | some srcOp =>
    cases srcOp with
    | fcvtToUintSat => exact absurd rfl h
    | otherProducer => rfl

/-- Witness for C8: an unmatched producer lowers to Ok with no
instructions and the diagnostic printed. -/
theorem uunarrow_unmatched_silent_ok_witness :
    (some UunarrowSrc.otherProducer ≠ some UunarrowSrc.fcvtToUintSat) ∧
    lower_uunarrow (some .otherProducer) =
      .ok { insts := [], printedDiagnostic := true } :=
  ⟨by decide,
    uunarrow_unmatched_silent_ok (some .otherProducer) (by decide)⟩

/-- C9: the Iconcat lowering emits only register-to-register moves placing
the low input in the low half and the high input in the high half of the
destination pair; the Isplit lowering emits only moves of the two halves
to the two outputs; composing the two reproduces the original register
contents bit for bit (the disequalities are the freshness guarantees of
the register allocator for destination registers). -/
theorem iconcat_isplit_round_trip (lo hi d0 d1 dLo dHi : Nat)
    (f0 : Nat → Nat)
    (h01 : d0 ≠ d1) (hhi0 : hi ≠ d0) (hLo1 : dLo ≠ d1) (hLoHi : dLo ≠ dHi) :
    (∀ i ∈ lower_iconcat lo hi d0 d1, i.isMove = true) ∧
    (∀ i ∈ lower_isplit d0 d1 dLo dHi, i.isMove = true) ∧
    (execInsts (lower_iconcat lo hi d0 d1) f0) d0 = f0 lo ∧
    (execInsts (lower_iconcat lo hi d0 d1) f0) d1 = f0 hi ∧
    (execInsts (lower_isplit d0 d1 dLo dHi)
      (execInsts (lower_iconcat lo hi d0 d1) f0)) dLo = f0 lo ∧
    (execInsts (lower_isplit d0 d1 dLo dHi)
      (execInsts (lower_iconcat lo hi d0 d1) f0)) dHi = f0 hi := by
  refine ⟨?_, ?_, ?_, ?_, ?_, ?_⟩
  · intro i hmem
    simp [lower_iconcat] at hmem
    rcases hmem with rfl | rfl <;> rfl
  · intro i hmem
    simp [lower_isplit] at hmem
    rcases hmem with rfl | rfl <;> rfl
  · simp [execInsts, execInst, lower_iconcat, h01]
  · simp [execInsts, execInst, lower_iconcat, hhi0]
  · simp [execInsts, execInst, lower_iconcat, lower_isplit, h01, hhi0,
      hLoHi, Ne.symm hLo1]
  · simp [execInsts, execInst, lower_iconcat, lower_isplit, h01, hhi0,
      Ne.symm hLo1]

/-- Witness for C9: concrete distinct registers round-trip the two halves
through Iconcat then Isplit. -/
theorem iconcat_isplit_round_trip_witness :
    ((0 : Nat) ≠ 1 ∧ (11 : Nat) ≠ 0 ∧ (2 : Nat) ≠ 1 ∧ (2 : Nat) ≠ 3) ∧
    (execInsts (lower_isplit 0 1 2 3)
      (execInsts (lower_iconcat 10 11 0 1) (fun n => n))) 2 = (fun n : Nat => n) 10 ∧
    (execInsts (lower_isplit 0 1 2 3)
      (execInsts (lower_iconcat 10 11 0 1) (fun n => n))) 3 = (fun n : Nat => n) 11 :=
  ⟨⟨by decide, by decide, by decide, by decide⟩,
    (iconcat_isplit_round_trip 10 11 0 1 2 3 (fun n => n)
      (by decide) (by decide) (by decide) (by decide)).2.2.2.2.1,
    (iconcat_isplit_round_trip 10 11 0 1 2 3 (fun n => n)
      (by decide) (by decide) (by decide) (by decide)).2.2.2.2.2⟩

/-- C10: for every float condition, emit_fcmp under FcmpSpec::Normal never
returns the InvertedEqualOrConditions variant, so the unreachable arms for
that variant at the Normal-spec call sites (trap lowering and branch
lowering) can never execute. -/
theorem emit_fcmp_normal_never_inverted (cond : FloatCC)
    (res : FcmpCondResult)
    (h : emit_fcmp_result cond .Normal = some res) :
    res.isInvertedEqualOr = false := by
  cases cond <;>
    simp only [emit_fcmp_result, FloatCC.reverse, CC.from_floatcc,
      Option.map] at h
  case Ordered => cases h; rfl
  case Unordered => cases h; rfl
  case Equal => cases h; rfl
  case NotEqual =>
    simp only [Bool.false_eq_true, if_false, Option.some.injEq] at h
    cases h; rfl
  case OrderedNotEqual => exact Option.noConfusion h
  case UnorderedOrEqual => exact Option.noConfusion h
  case LessThan => cases h; rfl
  case LessThanOrEqual => cases h; rfl
  case GreaterThan => cases h; rfl
  case GreaterThanOrEqual => cases h; rfl
  case UnorderedOrLessThan => cases h; rfl
  case UnorderedOrLessThanOrEqual => cases h; rfl
  case UnorderedOrGreaterThan => cases h; rfl
  case UnorderedOrGreaterThanOrEqual => cases h; rfl

/-- Witness for C10: the Equal condition under Normal returns the
two-flag conjunction, which is not the inverted variant. -/
theorem emit_fcmp_normal_never_inverted_witness :
    emit_fcmp_result .Equal .Normal =
      some (.AndConditions .NP .Z) ∧
    (FcmpCondResult.AndConditions .NP .Z).isInvertedEqualOr = false :=
  ⟨by decide,
    emit_fcmp_normal_never_inverted .Equal (.AndConditions .NP .Z) (by decide)⟩
